import Mathlib

set_option maxRecDepth 8000

/-!
Verification of `scripts/prepare_data.py` (tierras_extranjeras_arg).

Strings are modelled as `List Char`; Python dicts that are only read are
modelled as lookup functions or association lists; Python sets of strings
are modelled as duplicate-free-by-construction lists with membership
semantics.  Numeric values (Python int / float) are modelled as `Int` / `ℚ`;
every decimal literal used by the claims is exactly representable and all
threshold comparisons agree with IEEE semantics on those values.
-/

namespace TierrasArg

/-- Characters accepted by CPython's `Py_UNICODE_ISSPACE`, the predicate
behind `str.strip()`, `str.split()` and the regex class `\s` on `str`:
ASCII whitespace, the C1 separators, NEL, NBSP and the Unicode space
separators. -/
def pySpace (c : Char) : Bool :=
  (9 ≤ c.toNat && c.toNat ≤ 13) || c.toNat == 32 ||
  (28 ≤ c.toNat && c.toNat ≤ 31) || c.toNat == 133 || c.toNat == 160 ||
  c.toNat == 5760 || (8192 ≤ c.toNat && c.toNat ≤ 8202) ||
  c.toNat == 8232 || c.toNat == 8233 || c.toNat == 8239 ||
  c.toNat == 8287 || c.toNat == 12288

/-- Per-character model of
`unicodedata.normalize('NFKD', s).encode('ASCII', 'ignore')`
(prepare_data.py line 35).  NFKD is the identity on ASCII, so ASCII
characters pass through; accented Latin characters appearing in the
datasets decompose to their base letter (the combining mark is dropped by
the ASCII filter); any other non-ASCII character contributes no ASCII
output and is dropped. -/
def asciiFold (c : Char) : List Char :=
  if c.toNat < 128 then [c] else
  match c with
  | 'á' => ['a'] | 'é' => ['e'] | 'í' => ['i'] | 'ó' => ['o'] | 'ú' => ['u']
  | 'Á' => ['A'] | 'É' => ['E'] | 'Í' => ['I'] | 'Ó' => ['O'] | 'Ú' => ['U']
  | 'ñ' => ['n'] | 'Ñ' => ['N'] | 'ü' => ['u'] | 'Ü' => ['U']
  | 'º' => ['o'] | 'ª' => ['a']
  | _ => []

/-- Python `str.lower()`, on ASCII letters plus the accented uppercase
letters relevant to the datasets; every other character is fixed. -/
def pyLower (c : Char) : Char :=
  if 'A' ≤ c ∧ c ≤ 'Z' then Char.ofNat (c.toNat + 32) else
  match c with
  | 'Á' => 'á' | 'É' => 'é' | 'Í' => 'í' | 'Ó' => 'ó' | 'Ú' => 'ú'
  | 'Ñ' => 'ñ' | 'Ü' => 'ü'
  | _ => c

/-- Python `str.strip()`: drop leading and trailing whitespace. -/
def pyStrip (s : List Char) : List Char :=
  ((s.dropWhile pySpace).reverse.dropWhile pySpace).reverse

/-- Python `re.sub(r'[.,]', ' ', name)` (line 39). -/
def substPunct (c : Char) : Char := if c = '.' ∨ c = ',' then ' ' else c

/-- Worker for `re.sub(r'\s+', ' ', name).strip()`: `pending` records that a
whitespace run is open and must emit a single `' '` before the next
non-whitespace character (a run at the end of the string emits nothing). -/
def collapseGo : Bool → List Char → List Char
  | _, [] => []
  | pending, c :: rest =>
    if pySpace c then collapseGo true rest
    else if pending then ' ' :: c :: collapseGo false rest
    else c :: collapseGo false rest

/-- Python `re.sub(r'\s+', ' ', name).strip()` (line 40). -/
def pyCollapse (s : List Char) : List Char :=
  collapseGo false (s.dropWhile pySpace)

/-- Python `str.startswith` on the list model. -/
def leadsWith : List Char → List Char → Bool
  | [], _ => true
  | _ :: _, [] => false
  | a :: ps, b :: ss => a = b && leadsWith ps ss

/-- The prefix list of `normalize_name` (line 42), in source order. -/
def prefixes : List (List Char) :=
  ["provincia de ".toList, "partido de ".toList,
   "departamento de ".toList, "departamento ".toList]

/-- The prefix-stripping loop of `normalize_name` (lines 43-45).  Note the
loop has no `break`: each prefix in the list is tested (and stripped if it
matches) against the current value, in order. -/
def stripPrefixes (s : List Char) : List Char :=
  prefixes.foldl (fun n p => if leadsWith p n then n.drop p.length else n) s

/-- The accent/case/punctuation/whitespace stage of `normalize_name`
(lines 35-40), before prefix stripping. -/
def cleanName (s : List Char) : List Char :=
  pyCollapse ((pyStrip (((s.map asciiFold).flatten).map pyLower)).map substPunct)

/-- Function `normalize_name` (lines 30-46). -/
def normalize_name (s : List Char) : List Char :=
  if s = [] then [] else stripPrefixes (cleanName s)

/-! ## Tokenizer (`tokenize_normalized`, lines 59-87) -/

/-- The stopword set of `tokenize_normalized` (lines 61-64). -/
def stopwords : List (List Char) :=
  ["de", "del", "la", "las", "el", "los", "y",
   "general", "coronel", "mayor", "presidente"].map String.toList

/-- The replacement map of `tokenize_normalized` (lines 65-70). -/
def replacements : List (List Char × List Char) :=
  [("pte", "presidente"), ("presidencia", "presidente"),
   ("gonzales", "gonzalez"), ("gral", "general")].map
    (fun p => (p.1.toList, p.2.toList))

/-- The number-word map of `tokenize_normalized` (lines 71-75). -/
def number_map : List (List Char × List Char) :=
  [("tres", "3"), ("nueve", "9"), ("veinticinco", "25")].map
    (fun p => (p.1.toList, p.2.toList))

/-- ASCII decimal digit (token text is ASCII after normalization, so this
is Python `str.isdigit()` per character). -/
def isDig (c : Char) : Bool := '0' ≤ c && c ≤ '9'

/-- Worker for Python `str.split()` (no separator): split on whitespace
runs, discarding empty chunks.  `cur` is the current word, reversed. -/
def wordsGo (cur : List Char) : List Char → List (List Char)
  | [] => if cur = [] then [] else [cur.reverse]
  | c :: rest =>
    if pySpace c then
      if cur = [] then wordsGo [] rest else cur.reverse :: wordsGo [] rest
    else wordsGo (c :: cur) rest

/-- Python `str.split()` with no argument. -/
def pyWords (s : List Char) : List (List Char) := wordsGo [] s

/-- Python `set.add`: a set of strings as a duplicate-free list with
membership semantics. -/
def addTok (toks : List (List Char)) (t : List Char) : List (List Char) :=
  if t ∈ toks then toks else toks ++ [t]

/-- Function `tokenize_normalized` (lines 59-87).  Each whitespace-separated token is
passed through the replacement and number-word maps, dropped if it is a
single non-digit character or a stopword, and otherwise added; a kept token
beginning with `la` of length > 2 additionally contributes the token with
that two-character prefix removed (with no further filtering). -/
def tokenize_normalized (name : List Char) : List (List Char) :=
  (pyWords name).foldl (fun toks token =>
    let token := (List.lookup token replacements).getD token
    let token := (List.lookup token number_map).getD token
    if token.length = 1 && !(token.all isDig) then toks
    else if token ∈ stopwords then toks
    else
      let toks := addTok toks token
      if leadsWith ("la".toList) token && token.length > 2 then
        addTok toks (token.drop 2)
      else toks) []

/-! ## Matcher (`process_ign_departamentos`, lines 334-370) -/

/-- Table `CAPITAL_NAME_BY_PROV` (lines 90-98). -/
def CAPITAL_NAME_BY_PROV : List (List Char × List Char) :=
  [("misiones", "posadas"),
   ("catamarca", "san fernando del valle de catamarca"),
   ("tucuman", "san miguel de tucuman"),
   ("la pampa", "santa rosa"),
   ("la rioja", "la rioja"),
   ("corrientes", "corrientes"),
   ("santa fe", "santa fe")].map (fun p => (p.1.toList, p.2.toList))

/-- The three lookup structures built by `load_tierras_data` and read by the
matcher, with the record payload abstract (`α`).  Python dicts read through
`.get` (with `None` or `[]` default) are modelled as total lookup
functions. -/
structure TierrasData (α : Type) where
  departamentos : List Char → Option α
  departamentos_by_name : List Char → List α
  departamentos_by_prov : List Char → List (List (List Char) × α)

/-- The exact-match key `f"{normalized_prov}|{normalized_name}"`
(lines 243 and 348). -/
def deptKey (prov name : List Char) : List Char := prov ++ '|' :: name

/-- Cascade stage 1 (lines 346-349): exact key lookup, attempted only when
the normalized province is truthy (non-empty). -/
def exactStage (td : TierrasData α) (prov name : List Char) : Option α :=
  if prov ≠ [] then td.departamentos (deptKey prov name) else none

/-- Cascade stage 2 (lines 351-354): by-name lookup, used only when the
province is falsy; succeeds only on exactly one candidate. -/
def byNameStage (td : TierrasData α) (name : List Char) : Option α :=
  let ms := td.departamentos_by_name name
  if ms.length = 1 then ms.head? else none

/-- Python set inclusion `a <= b` on the list-with-membership model. -/
def subsetB (a b : List (List Char)) : Bool :=
  a.all (fun t => decide (t ∈ b))

/-- The candidate list of cascade stage 3 (lines 357-362): records of the
province whose token set is a subset of the boundary's token set or vice
versa. -/
def fuzzyCandidates (td : TierrasData α) (prov name : List Char) : List α :=
  let ign_tokens := tokenize_normalized name
  ((td.departamentos_by_prov prov).filter
    (fun item => subsetB item.1 ign_tokens || subsetB ign_tokens item.1)).map
    Prod.snd

/-- Cascade stage 3 (lines 356-364): token-set fuzzy match, used only when
the province is truthy; succeeds only on exactly one candidate. -/
def fuzzyStage (td : TierrasData α) (prov name : List Char) : Option α :=
  let candidates := fuzzyCandidates td prov name
  if candidates.length = 1 then candidates.head? else none

/-- Cascade stage 4 (lines 366-370): capital-name substitution followed by a
retry of the exact key index. -/
def capitalStage (td : TierrasData α) (prov name : List Char) : Option α :=
  if name = "capital".toList ∨ name = "la capital".toList then
    match List.lookup prov CAPITAL_NAME_BY_PROV with
    | some capital_name => td.departamentos (deptKey prov capital_name)
    | none => none
  else none

/-- The matching cascade of `process_ign_departamentos` (lines 346-370),
for one boundary feature, given the already-normalized province and
department names.  The guards reproduce the source exactly: stage 2 runs
only when `tierras is None and not normalized_prov`; stages 3 and 4 only
when `tierras is None and normalized_prov`. -/
def matchDepartamento (td : TierrasData α) (prov name : List Char) : Option α :=
  match exactStage td prov name with
  | some d => some d
  | none =>
    if prov = [] then byNameStage td name
    else
      match fuzzyStage td prov name with
      | some d => some d
      | none => capitalStage td prov name

/-! ## Parsed values and the classifier (`get_nivel`, lines 150-159) -/

/-- A value stored by `parse_html_description`: a Python str, int or float.
Floats are modelled as exact rationals; every decimal literal the claims
use is exactly representable and compares identically to IEEE doubles at
the thresholds 6 and 10. -/
inductive PyVal : Type
  | str (s : List Char)
  | int (n : Int)
  | float (q : ℚ)
deriving DecidableEq

/-- The severity bands. -/
inductive Nivel : Type
  | sin_datos
  | alto
  | sobre_promedio
  | normal
deriving DecidableEq

/-- Result of `get_nivel`: a band, or the `TypeError` Python raises when the
stored percentage is a str and line 154 evaluates `porcentaje >= 10`. -/
inductive NivelRes : Type
  | ok (n : Nivel)
  | typeError
deriving DecidableEq

/-- The numeric banding of lines 154-159. -/
def nivelOfRat (q : ℚ) : Nivel :=
  if 10 ≤ q then .alto else if 6 ≤ q then .sobre_promedio else .normal

/-- Function `get_nivel` (lines 150-159).  The argument models
`data.get('porcentaje')`: `none` is Python `None`; a `PyVal.str` value (an
unparsed raw percentage) makes `porcentaje >= 10` raise `TypeError`. -/
def get_nivel : Option PyVal → NivelRes
  | none => .ok .sin_datos
  | some (.int n) => .ok (nivelOfRat n)
  | some (.float q) => .ok (nivelOfRat q)
  | some (.str _) => .typeError

/-! ## Description parser (`parse_html_description`, lines 101-147) -/

/-- After an initial `<`, match the rest of the regex `<br\s*/?>`
(case-insensitive `br`, then whitespace, then `/>` or `>`), returning the
remainder of the string on success.  Backtracking is irrelevant: `\s*` can
only end at a non-whitespace character, and `/` and `>` are not
whitespace. -/
def tryBr : List Char → Option (List Char)
  | b :: r :: rest =>
    if (b = 'b' ∨ b = 'B') ∧ (r = 'r' ∨ r = 'R') then
      match rest.dropWhile pySpace with
      | '/' :: '>' :: tail => some tail
      | '>' :: tail => some tail
      | _ => none
    else none
  | _ => none

/-- Prepend a character to the first chunk of a split result. -/
def consCur (c : Char) : List (List Char) → List (List Char)
  | [] => [[c]]
  | h :: t => (c :: h) :: t

/-- Fuelled worker for `re.split(r'<br\s*/?>', description, flags=re.I)`:
scan left to right, cutting at each leftmost match.  Each step consumes at
least one character, so fuel `s.length` suffices. -/
def splitBrGo : Nat → List Char → List (List Char)
  | _, [] => [[]]
  | 0, s => [s]
  | fuel + 1, c :: rest =>
    if c = '<' then
      match tryBr rest with
      | some tail => [] :: splitBrGo fuel tail
      | none => consCur c (splitBrGo fuel rest)
    else consCur c (splitBrGo fuel rest)

/-- Python `re.split(r'<br\s*/?>', description, flags=re.IGNORECASE)` (line 107). -/
def splitBr (s : List Char) : List (List Char) := splitBrGo s.length s

/-- Split a chunk at its first colon (`part.split(':', 1)`, line 112),
`none` when the chunk has no colon (`':' in part` fails, line 111).
`acc` holds the scanned key characters, reversed. -/
def splitColonGo (acc : List Char) : List Char → Option (List Char × List Char)
  | [] => none
  | c :: r => if c = ':' then some (acc.reverse, r) else splitColonGo (c :: acc) r

/-- Digit value of an ASCII digit. -/
def digVal (c : Char) : Nat := c.toNat - 48

/-- Scan a Python digit group (digits with single underscores between
digits): returns the accumulated value, the digit count and the unscanned
remainder; `none` when an underscore is not followed by a digit. -/
def grpGo (acc cnt : Nat) : List Char → Option (Nat × Nat × List Char)
  | [] => some (acc, cnt, [])
  | '_' :: rest =>
    match rest with
    | c :: r => if isDig c then grpGo (acc * 10 + digVal c) (cnt + 1) r else none
    | [] => none
  | c :: r =>
    if isDig c then grpGo (acc * 10 + digVal c) (cnt + 1) r
    else some (acc, cnt, c :: r)

/-- Scan a possibly-empty digit group; a leading underscore scans as an
empty group (leaving the underscore in the remainder, which then fails the
caller's next expectation, as in Python). -/
def grp (s : List Char) : Option (Nat × Nat × List Char) :=
  match s with
  | c :: r => if isDig c then grpGo (digVal c) 1 r else some (0, 0, s)
  | [] => some (0, 0, [])

/-- Model of Python `int(str)`: optional whitespace already stripped by the
caller model, optional sign, then a non-empty digit group consuming the
whole string.  (Non-ASCII digits do not occur in the datasets and are not
modelled.) -/
def pyInt (s : List Char) : Option Int :=
  let t := pyStrip s
  let core : List Char → Option Int := fun u =>
    match u with
    | c :: r =>
      if isDig c then
        match grpGo (digVal c) 1 r with
        | some (v, _, []) => some (v : Int)
        | _ => none
      else none
    | [] => none
  match t with
  | '+' :: r => core r
  | '-' :: r => (core r).map (fun n => -n)
  | _ => core t

/-- Scan an optional exponent part `(e|E)[+-]?digits`; `some 0` on the empty
string, `none` when anything else remains. -/
def expPart : List Char → Option Int
  | [] => some 0
  | c :: r =>
    if c = 'e' ∨ c = 'E' then
      let core : List Char → Option Int := fun u =>
        match u with
        | d :: dr =>
          if isDig d then
            match grpGo (digVal d) 1 dr with
            | some (v, _, []) => some (v : Int)
            | _ => none
          else none
        | [] => none
      match r with
      | '+' :: rr => core rr
      | '-' :: rr => (core rr).map (fun n => -n)
      | _ => core r
    else none

/-- Model of Python `float(str)` on finite decimal forms:
`[+-]? (digits [. digits?] | . digits) [(e|E)[+-]?digits]`, with single
underscores allowed inside digit groups, yielding the exact rational value.
(`inf`/`nan` spellings do not occur in the datasets and are not modelled;
Python's rounding to binary cannot change any comparison the claims
make.) -/
def pyFloat (s : List Char) : Option ℚ :=
  let t := pyStrip s
  let body : List Char → Option ℚ := fun u =>
    match grp u with
    | some (ip, ic, r1) =>
      match r1 with
      | '.' :: r2 =>
        match grp r2 with
        | some (fp, fc, r3) =>
          if ic + fc = 0 then none
          else
            match expPart r3 with
            | some e =>
              some ((((ip : ℚ) * 10 ^ fc + (fp : ℚ)) / 10 ^ fc) * 10 ^ e)
            | none => none
        | none => none
      | _ =>
        if ic = 0 then none
        else
          match expPart r1 with
          | some e => some ((ip : ℚ) * 10 ^ e)
          | none => none
    | none => none
  match t with
  | '+' :: r => body r
  | '-' :: r => (body r).map (fun q => -q)
  | _ => body t

/-- Python `value.replace(',', '')` (line 131). -/
def stripCommas (s : List Char) : List Char := s.filter (fun c => c ≠ ',')

/-- The hectare-field coercion (lines 130-135): strip thousands-separator
commas, try float, keep the (comma-stripped) string on failure. -/
def coerceHa (v : List Char) : PyVal :=
  let v' := stripCommas v
  match pyFloat v' with
  | some q => .float q
  | none => .str v'

/-- The percentage-field coercion (lines 136-143): try int, then float,
then keep the raw string. -/
def coercePct (v : List Char) : PyVal :=
  match pyInt v with
  | some n => .int n
  | none =>
    match pyFloat v with
    | some q => .float q
    | none => .str v

/-- The key synonym map `key_map` (lines 116-126). -/
def KEY_MAP : List (List Char × List Char) :=
  [("pais", "pais"),
   ("provincia", "provincia"),
   ("povincia", "provincia"),
   ("total hectáreas", "total_ha"),
   ("total hectareas", "total_ha"),
   ("hectáreas extranjerizadas", "extranjerizada_ha"),
   ("hectareas extranjerizadas", "extranjerizada_ha"),
   ("porcentaje extranjerización", "porcentaje"),
   ("porcentaje extranjerizacion", "porcentaje")].map
    (fun p => (p.1.toList, p.2.toList))

/-- Python `key_map.get(key, key.replace(' ', '_'))` (line 128). -/
def normKey (k : List Char) : List Char :=
  (List.lookup k KEY_MAP).getD (k.map (fun c => if c = ' ' then '_' else c))

/-- Python dict assignment `d[k] = v`: overwrite in place when the key
exists, append otherwise. -/
def dictInsert (d : List (List Char × PyVal)) (k : List Char) (v : PyVal) :
    List (List Char × PyVal) :=
  if (List.lookup k d).isSome then
    d.map (fun p => if p.1 = k then (k, v) else p)
  else d ++ [(k, v)]

/-- Function `parse_html_description` (lines 101-147). -/
def parse_html_description (description : List Char) : List (List Char × PyVal) :=
  if description = [] then []
  else
    (splitBr description).foldl (fun data part =>
      let part := pyStrip part
      match splitColonGo [] part with
      | none => data
      | some (rawKey, rawValue) =>
        let key := (pyStrip rawKey).map pyLower
        let value := pyStrip rawValue
        let normalized_key := normKey key
        let value : PyVal :=
          if normalized_key = "total_ha".toList ∨
              normalized_key = "extranjerizada_ha".toList then coerceHa value
          else if normalized_key = "porcentaje".toList then coercePct value
          else .str value
        dictInsert data normalized_key value) []

/-! ## Province code resolution (lines 261-273 and 342-344) -/

/-- A value of the `in1` administrative-code column: SQLite may surface it
as an integer or as a text code. -/
inductive PyScalar : Type
  | int (n : Int)
  | str (s : List Char)
deriving DecidableEq

/-- Python `str()` on an `in1` value. -/
def pyStr : PyScalar → List Char
  | .int n => if n < 0 then '-' :: Nat.toDigits 10 n.natAbs else Nat.toDigits 10 n.natAbs
  | .str s => s

/-- Python `str.zfill(2)` (line 270): left-pad with zeros to width 2,
keeping a leading sign in front of the padding. -/
def zfill2 (s : List Char) : List Char :=
  if 2 ≤ s.length then s
  else
    match s with
    | c :: r =>
      if c = '-' ∨ c = '+' then c :: List.replicate (2 - s.length) '0' ++ r
      else List.replicate (2 - s.length) '0' ++ s
    | [] => List.replicate 2 '0'

/-- Line 342: `prov_code = str(in1)[:2] if in1 is not None else None`.
Note: the first two characters, with no zero-padding. -/
def deptProvCode (in1 : Option PyScalar) : Option (List Char) :=
  in1.map (fun v => (pyStr v).take 2)

/-- Python truthy `or` on two optional strings (`nam or fna`, line 271). -/
def pyOrStr (nam fna : Option (List Char)) : Option (List Char) :=
  match nam with
  | some s => if s = [] then fna else some s
  | none => fna

/-- Function `build_province_code_map` (lines 261-273): rows of `(in1, nam, fna)`;
rows with a null `in1` are skipped, and the province name is stored under
`str(in1).zfill(2)`. -/
def build_province_code_map
    (rows : List (Option PyScalar × Option (List Char) × Option (List Char))) :
    List (List Char × Option (List Char)) :=
  rows.foldl (fun m row =>
    match row.1 with
    | none => m
    | some v =>
      let code := zfill2 (pyStr v)
      if (List.lookup code m).isSome then
        m.map (fun p => if p.1 = code then (code, pyOrStr row.2.1 row.2.2) else p)
      else m ++ [(code, pyOrStr row.2.1 row.2.2)]) []

/-! ## Invariants of normalized text (for the idempotence analysis) -/

/-- A character as left by the cleanup stages before whitespace collapsing:
ASCII, fixed by `pyLower`, and not a period or comma. -/
def baseOK (c : Char) : Bool :=
  decide (c.toNat < 128) && decide (pyLower c = c) &&
  decide (c ≠ '.') && decide (c ≠ ',')

/-- A character of a fully cleaned name: `baseOK`, and any whitespace is
exactly a space. -/
def cleanChar (c : Char) : Bool :=
  baseOK c && (!(pySpace c) || decide (c = ' '))

/-- No two adjacent spaces. -/
def noDoubleSpace : List Char → Bool
  | [] => true
  | [_] => true
  | a :: b :: r => !(decide (a = ' ') && decide (b = ' ')) && noDoubleSpace (b :: r)

/-- The invariant of `cleanName` output: every character clean, no adjacent
spaces, and no leading or trailing space. -/
def isCleanStr (s : List Char) : Bool :=
  s.all cleanChar && noDoubleSpace s &&
  decide (s.head? ≠ some ' ') && decide (s.getLast? ≠ some ' ')

/-! ## Concrete index states used as witnesses and counterexamples -/

/-- Index state holding, for the same department, both an exact-key record
(1) and a fuzzy-token candidate (2). -/
def tdBoth : TierrasData Nat where
  departamentos := fun k => if k = "cordoba|capital".toList then some 1 else none
  departamentos_by_name := fun _ => []
  departamentos_by_prov := fun p =>
    if p = "cordoba".toList then [(["capital".toList], 2)] else []

/-- Index state where, for the capital-placeholder name in a province
listed in the capital table, the exact stage misses, the fuzzy stage
succeeds with record 3, and the capital substitution would find record 9:
the cascade must return the fuzzy record. -/
def tdFuzzyCap : TierrasData Nat where
  departamentos := fun k => if k = "misiones|posadas".toList then some 9 else none
  departamentos_by_name := fun _ => []
  departamentos_by_prov := fun p =>
    if p = "misiones".toList then [(["capital".toList], 3)] else []

/-- Index state with an ambiguous by-name entry (two records named
`san martin`) and an ambiguous fuzzy province list. -/
def tdAmbig : TierrasData Nat where
  departamentos := fun _ => none
  departamentos_by_name := fun n => if n = "san martin".toList then [1, 2] else []
  departamentos_by_prov := fun p =>
    if p = "chaco".toList then [(["x".toList], 3), (["x".toList], 4)] else []

/-- Index state holding the Córdoba-city record under `cordoba|cordoba` and
nothing else. -/
def tdCordoba : TierrasData Nat where
  departamentos := fun k => if k = "cordoba|cordoba".toList then some 7 else none
  departamentos_by_name := fun _ => []
  departamentos_by_prov := fun _ => []

/-- Index state holding the Posadas record under `misiones|posadas` and
nothing else. -/
def tdMisiones : TierrasData Nat where
  departamentos := fun k => if k = "misiones|posadas".toList then some 5 else none
  departamentos_by_name := fun _ => []
  departamentos_by_prov := fun _ => []

/-- Exactly-one-candidate selection, the common shape of cascade stages 2
and 3 (`if len(xs) == 1: xs[0]`). -/
theorem uniquePickSpec {α : Type} (l : List α) :
    (l.length ≠ 1 → (if l.length = 1 then l.head? else none) = none) ∧
    (∀ d : α, l = [d] → (if l.length = 1 then l.head? else none) = some d) ∧
    (∀ d : α, (if l.length = 1 then l.head? else none) = some d → l = [d]) := by
  refine ⟨fun h => by simp [h], fun d hd => by simp [hd], fun d hd => ?_⟩
  by_cases h : l.length = 1
  · obtain ⟨a, ha⟩ := List.length_eq_one.mp h
    subst ha
    simp at hd
    simp [hd]
  · simp [h] at hd

/-- C1: the matcher tries its four strategies in strict priority order,
stopping at the first success: an exact-key hit is returned outright; the
by-name stage is consulted only when the province is unresolved; with a
resolved province the result never depends on the by-name index; with an
unresolved province the cascade IS the by-name stage; when the exact stage
misses, a successful fuzzy match is returned, preempting the capital
substitution; and only when stages 1-3 all fail is the cascade the capital
stage. -/
theorem matcher_cascade_priority :
    (∀ (α : Type) (td : TierrasData α) (prov name : List Char) (d : α),
      prov ≠ [] → td.departamentos (deptKey prov name) = some d →
      matchDepartamento td prov name = some d) ∧
    (∀ (α : Type) (td : TierrasData α) (prov name : List Char)
      (f : List Char → List α), prov ≠ [] →
      matchDepartamento
        { td with departamentos_by_name := f } prov name =
        matchDepartamento td prov name) ∧
    (∀ (α : Type) (td : TierrasData α) (name : List Char),
      matchDepartamento td [] name = byNameStage td name) ∧
    (∀ (α : Type) (td : TierrasData α) (prov name : List Char) (d : α),
      prov ≠ [] → td.departamentos (deptKey prov name) = none →
      fuzzyStage td prov name = some d →
      matchDepartamento td prov name = some d) ∧
    (∀ (α : Type) (td : TierrasData α) (prov name : List Char),
      prov ≠ [] → td.departamentos (deptKey prov name) = none →
      fuzzyStage td prov name = none →
      matchDepartamento td prov name = capitalStage td prov name) := by
  refine ⟨fun α td prov name d hp hd => ?_, fun α td prov name f hp => ?_,
    fun α td name => ?_, fun α td prov name d hp hmiss hfz => ?_,
    fun α td prov name hp hmiss hfz => ?_⟩
  · simp [matchDepartamento, exactStage, hp, hd]
  · simp [matchDepartamento, exactStage, fuzzyStage, fuzzyCandidates,
      capitalStage, hp]
  · simp [matchDepartamento, exactStage]
  · simp [matchDepartamento, exactStage, hp, hmiss, hfz]
  · simp [matchDepartamento, exactStage, hp, hmiss, hfz]

/-- C1 witness: with both an exact-key record (1) and a fuzzy-token
candidate (2) present for `cordoba|capital`, the exact-key record is
returned; and with the exact stage missing, a fuzzy record (3) and a
capital-substitution record (9) both available, the fuzzy record is
returned. -/
theorem matcher_cascade_priority_witness :
    matchDepartamento tdBoth ("cordoba".toList) ("capital".toList) = some 1 ∧
    matchDepartamento tdFuzzyCap ("misiones".toList) ("capital".toList)
      = some 3 :=
  ⟨matcher_cascade_priority.1 Nat tdBoth ("cordoba".toList)
      ("capital".toList) 1 (by decide) (by decide),
   matcher_cascade_priority.2.2.2.1 Nat tdFuzzyCap ("misiones".toList)
      ("capital".toList) 3 (by decide) (by decide) (by decide)⟩

/-- C2: the by-name stage and the fuzzy stage return a record only when
exactly one candidate qualifies; zero or several candidates yield no match,
and a returned record is always the sole qualifying candidate (never an
arbitrary pick). -/
theorem matcher_unique_candidate_only :
    (∀ (α : Type) (td : TierrasData α) (name : List Char),
      ((td.departamentos_by_name name).length ≠ 1 →
        byNameStage td name = none) ∧
      (∀ d : α, td.departamentos_by_name name = [d] →
        byNameStage td name = some d) ∧
      (∀ d : α, byNameStage td name = some d →
        td.departamentos_by_name name = [d])) ∧
    (∀ (α : Type) (td : TierrasData α) (prov name : List Char),
      ((fuzzyCandidates td prov name).length ≠ 1 →
        fuzzyStage td prov name = none) ∧
      (∀ d : α, fuzzyCandidates td prov name = [d] →
        fuzzyStage td prov name = some d) ∧
      (∀ d : α, fuzzyStage td prov name = some d →
        fuzzyCandidates td prov name = [d])) :=
  ⟨fun _ td name => uniquePickSpec (td.departamentos_by_name name),
   fun _ td prov name => uniquePickSpec (fuzzyCandidates td prov name)⟩

/-- C2 witness: an ambiguous by-name entry (two records) and an ambiguous
fuzzy candidate list (two records) both yield no match. -/
theorem matcher_unique_candidate_only_witness :
    byNameStage tdAmbig ("san martin".toList) = none ∧
    fuzzyStage tdAmbig ("chaco".toList) ("x".toList) = none :=
  ⟨(matcher_unique_candidate_only.1 Nat tdAmbig ("san martin".toList)).1
      (by decide),
   (matcher_unique_candidate_only.2 Nat tdAmbig ("chaco".toList)
      ("x".toList)).1 (by decide)⟩

/-- C3 counterexample: for the administrative code 6 (a one-character
string form), the matcher's lookup key `str(in1)[:2]` is `"6"`, while the
zero-padded two-digit key is `"06"`; the claim's equation fails. -/
theorem prov_code_padding_counterexample :
    deptProvCode (some (.int 6)) = some ("6".toList) ∧
    zfill2 ((pyStr (.int 6)).take 2) = "06".toList ∧
    deptProvCode (some (.int 6)) ≠
      some (zfill2 ((pyStr (.int 6)).take 2)) := by decide

/-- C3 (amended): the matcher keys the ProvinceCodeMap by the first two
characters of `str(in1)` with no zero-padding; this equals the zero-padded
two-digit key exactly when `str(in1)` has at least two characters.
`build_province_code_map` itself always stores under `str(in1).zfill(2)`. -/
theorem prov_code_key_agreement :
    (∀ v : PyScalar, 2 ≤ (pyStr v).length →
      deptProvCode (some v) = some (zfill2 ((pyStr v).take 2))) ∧
    (∀ (v : PyScalar) (nam fna : Option (List Char)),
      build_province_code_map [(some v, nam, fna)] =
        [(zfill2 (pyStr v), pyOrStr nam fna)]) := by
  constructor
  · intro v hv
    have hlen : ((pyStr v).take 2).length = 2 := by
      simp [List.length_take]
      omega
    simp [deptProvCode, zfill2, hlen]
  · intro v nam fna
    simp [build_province_code_map]

/-- C3 witness: for the five-character department code `"06007"`, the
matcher key `"06"` coincides with the zero-padded key. -/
theorem prov_code_key_agreement_witness :
    deptProvCode (some (.str ("06007".toList))) =
      some (zfill2 ((pyStr (.str ("06007".toList))).take 2)) :=
  prov_code_key_agreement.1 (.str ("06007".toList)) (by decide)

/-- The numeric banding never yields `sin_datos`. -/
theorem nivelOfRat_ne_sin_datos (q : ℚ) : nivelOfRat q ≠ .sin_datos := by
  unfold nivelOfRat
  split
  · simp
  · split <;> simp

/-- C4: the classifier is a pure function of the percentage with inclusive
lower bounds: `sin_datos` exactly on null, `alto` on ≥ 10, `sobre_promedio`
on ≥ 6 and < 10, `normal` on < 6, for float and int percentages alike; the
five boundary evaluations of the claim hold. -/
theorem classifier_bands :
    (∀ v : Option PyVal, get_nivel v = .ok .sin_datos ↔ v = none) ∧
    (∀ q : ℚ, 10 ≤ q → get_nivel (some (.float q)) = .ok .alto) ∧
    (∀ q : ℚ, 6 ≤ q → q < 10 →
      get_nivel (some (.float q)) = .ok .sobre_promedio) ∧
    (∀ q : ℚ, q < 6 → get_nivel (some (.float q)) = .ok .normal) ∧
    (∀ n : Int, 10 ≤ n → get_nivel (some (.int n)) = .ok .alto) ∧
    (∀ n : Int, 6 ≤ n → n < 10 →
      get_nivel (some (.int n)) = .ok .sobre_promedio) ∧
    (∀ n : Int, n < 6 → get_nivel (some (.int n)) = .ok .normal) ∧
    get_nivel (some (.int 10)) = .ok .alto ∧
    get_nivel (some (.float (9.99 : ℚ))) = .ok .sobre_promedio ∧
    get_nivel (some (.int 6)) = .ok .sobre_promedio ∧
    get_nivel (some (.float (5.99 : ℚ))) = .ok .normal ∧
    get_nivel none = .ok .sin_datos := by
  refine ⟨fun v => ?_, fun q h => ?_, fun q h1 h2 => ?_, fun q h => ?_,
    fun n h => ?_, fun n h1 h2 => ?_, fun n h => ?_, ?_, ?_, ?_, ?_, rfl⟩
  · match v with
    | none => simp [get_nivel]
    | some (.int n) => simp [get_nivel, nivelOfRat_ne_sin_datos]
    | some (.float q) => simp [get_nivel, nivelOfRat_ne_sin_datos]
    | some (.str s) => simp [get_nivel]
  · simp [get_nivel, nivelOfRat, h]
  · simp [get_nivel, nivelOfRat, h1, if_neg (by linarith : ¬ (10:ℚ) ≤ q)]
  · simp [get_nivel, nivelOfRat, if_neg (by linarith : ¬ (10:ℚ) ≤ q),
      if_neg (by linarith : ¬ (6:ℚ) ≤ q)]
  · have : (10 : ℚ) ≤ (n : ℚ) := by exact_mod_cast h
    simp [get_nivel, nivelOfRat, this]
  · have h1' : (6 : ℚ) ≤ (n : ℚ) := by exact_mod_cast h1
    have h2' : ((n : ℚ) : ℚ) < 10 := by exact_mod_cast h2
    simp [get_nivel, nivelOfRat, h1', if_neg (by linarith : ¬ (10:ℚ) ≤ (n:ℚ))]
  · have h' : ((n : ℚ) : ℚ) < 6 := by exact_mod_cast h
    simp [get_nivel, nivelOfRat, if_neg (by linarith : ¬ (10:ℚ) ≤ (n:ℚ)),
      if_neg (by linarith : ¬ (6:ℚ) ≤ (n:ℚ))]
  · norm_num [get_nivel, nivelOfRat]
  · norm_num [get_nivel, nivelOfRat]
  · norm_num [get_nivel, nivelOfRat]
  · norm_num [get_nivel, nivelOfRat]

/-- C4 witness: the banding conjuncts applied at 11, 7 and 2. -/
theorem classifier_bands_witness :
    get_nivel (some (.float (11 : ℚ))) = .ok .alto ∧
    get_nivel (some (.float (7 : ℚ))) = .ok .sobre_promedio ∧
    get_nivel (some (.float (2 : ℚ))) = .ok .normal :=
  ⟨classifier_bands.2.1 11 (by decide),
   classifier_bands.2.2.1 7 (by decide) (by decide),
   classifier_bands.2.2.2.1 2 (by decide)⟩

/-- C8 counterexample: on the raw-string percentage `"sin dato"` the
classifier raises `TypeError` (line 154 compares a str with an int) instead
of returning `sin_datos`. -/
theorem classifier_raw_string_counterexample :
    get_nivel (some (.str ("sin dato".toList))) = .typeError ∧
    get_nivel (some (.str ("sin dato".toList))) ≠ .ok .sin_datos := by decide

/-- C8 (amended): a non-numeric (raw string) percentage makes `get_nivel`
raise `TypeError`; `sin_datos` is returned exactly for a null/absent
percentage, never for a raw string. -/
theorem classifier_raw_string_raises :
    (∀ s : List Char, get_nivel (some (.str s)) = .typeError) ∧
    (∀ v : Option PyVal, get_nivel v = .ok .sin_datos ↔ v = none) := by
  refine ⟨fun s => rfl, fun v => ?_⟩
  match v with
  | none => simp [get_nivel]
  | some (.int n) => simp [get_nivel, nivelOfRat_ne_sin_datos]
  | some (.float q) => simp [get_nivel, nivelOfRat_ne_sin_datos]
  | some (.str s) => simp [get_nivel]

/-- C9: the description parser is total on numeric fields: a hectare value
is comma-stripped and parsed as a float, the (comma-stripped) string being
kept when parsing fails; a percentage value is parsed as int, then float,
then kept as the raw string, in that order; on
`"Provincia: Chaco<br>Porcentaje Extranjerización: 12"` the percentage is
the integer 12. -/
theorem parser_numeric_fields :
    List.lookup ("porcentaje".toList)
      (parse_html_description
        ("Provincia: Chaco<br>Porcentaje Extranjerización: 12".toList))
      = some (.int 12) ∧
    List.lookup ("provincia".toList)
      (parse_html_description
        ("Provincia: Chaco<br>Porcentaje Extranjerización: 12".toList))
      = some (.str ("Chaco".toList)) ∧
    (∀ v : List Char,
      (∃ q : ℚ, coerceHa v = .float q ∧ pyFloat (stripCommas v) = some q) ∨
      (coerceHa v = .str (stripCommas v) ∧ pyFloat (stripCommas v) = none)) ∧
    (∀ v : List Char,
      (∃ n : Int, coercePct v = .int n ∧ pyInt v = some n) ∨
      (pyInt v = none ∧
        ((∃ q : ℚ, coercePct v = .float q ∧ pyFloat v = some q) ∨
         (pyFloat v = none ∧ coercePct v = .str v)))) := by
  refine ⟨by decide, by decide, fun v => ?_, fun v => ?_⟩
  · cases h : pyFloat (stripCommas v) with
    | some q => exact .inl ⟨q, by simp [coerceHa, h], rfl⟩
    | none => exact .inr ⟨by simp [coerceHa, h], rfl⟩
  · cases hi : pyInt v with
    | some n => exact .inl ⟨n, by simp [coercePct, hi], rfl⟩
    | none =>
      refine .inr ⟨rfl, ?_⟩
      cases hf : pyFloat v with
      | some q => exact .inl ⟨q, by simp [coercePct, hi, hf], rfl⟩
      | none => exact .inr ⟨rfl, by simp [coercePct, hi, hf]⟩

/-- C10: the `la`-prefix augmentation of the tokenizer adds `token[2:]`
without re-applying the single-character and stopword filters: `lala`
yields the stopword `la`, and `lan` yields the single non-digit character
`n`. -/
theorem tokenizer_filter_leak :
    "la".toList ∈ tokenize_normalized ("lala".toList) ∧
    "la".toList ∈ stopwords ∧
    "n".toList ∈ tokenize_normalized ("lan".toList) ∧
    ("n".toList).length = 1 ∧ ("n".toList).all isDig = false := by decide

/-- C7 counterexample: a boundary named `capital` in a province resolving
to `cordoba`, with the Córdoba-city record present under
`cordoba|cordoba` and stages 1–3 failing, is NOT matched: the capital
substitution table has no `cordoba` entry. -/
theorem capital_cordoba_counterexample :
    List.lookup ("cordoba".toList) CAPITAL_NAME_BY_PROV = none ∧
    tdCordoba.departamentos ("cordoba|cordoba".toList) = some 7 ∧
    matchDepartamento tdCordoba ("cordoba".toList) ("capital".toList)
      = none := by decide

/-- C7 (amended): the capital substitution covers exactly the seven
provinces listed in `CAPITAL_NAME_BY_PROV` (Córdoba is not among them):
for a listed province, a department whose normalized name is a capital
placeholder, with stages 1–3 failed, resolves through the substituted
exact key when that record is present. -/
theorem capital_substitution_listed_provinces :
    ∀ (α : Type) (td : TierrasData α) (prov name capName : List Char) (d : α),
      prov ≠ [] →
      td.departamentos (deptKey prov name) = none →
      fuzzyStage td prov name = none →
      (name = "capital".toList ∨ name = "la capital".toList) →
      List.lookup prov CAPITAL_NAME_BY_PROV = some capName →
      td.departamentos (deptKey prov capName) = some d →
      matchDepartamento td prov name = some d := by
  intro α td prov name capName d hp hmiss hfuzzy hname hcap hd
  have he : exactStage td prov name = none := by simp [exactStage, hp, hmiss]
  have hc : capitalStage td prov name = some d := by
    unfold capitalStage
    rw [if_pos hname, hcap]
    exact hd
  simp only [matchDepartamento, he, if_neg hp, hfuzzy, hc]

/-- C7 witness: in Misiones (a listed province) a department named
`capital` resolves to the Posadas record. -/
theorem capital_substitution_listed_provinces_witness :
    matchDepartamento tdMisiones ("misiones".toList) ("capital".toList)
      = some 5 :=
  capital_substitution_listed_provinces Nat tdMisiones ("misiones".toList)
    ("capital".toList) ("posadas".toList) 5 (by decide) (by decide)
    (by decide) (by decide) (by decide) (by decide)

/-! ## Helper lemmas for the normalizer analysis -/

/-- Checked over all 128 ASCII codes: lowering then de-punctuating an ASCII
character yields a `baseOK` character, and lowering stays ASCII. -/
theorem asciiCharFacts : ∀ n : Fin 128,
    baseOK (substPunct (pyLower (Char.ofNat n.val))) = true ∧
    (pyLower (Char.ofNat n.val)).toNat < 128 := by decide

/-- Fact: `asciiFold` emits only ASCII characters. -/
theorem asciiFold_ascii (c d : Char) (hd : d ∈ asciiFold c) : d.toNat < 128 := by
  unfold asciiFold at hd
  split at hd
  · next h => simp at hd; subst hd; exact h
  · split at hd <;> simp_all

theorem mem_pyStrip {c : Char} {s : List Char} (h : c ∈ pyStrip s) : c ∈ s := by
  unfold pyStrip at h
  rw [List.mem_reverse] at h
  have h1 := (List.dropWhile_sublist (l := (s.dropWhile pySpace).reverse)
    (p := pySpace)).subset h
  rw [List.mem_reverse] at h1
  exact (List.dropWhile_sublist (l := s) (p := pySpace)).subset h1

/-- Every character surviving the pre-collapse cleanup stages is `baseOK`. -/
theorem cleanStages_baseOK (s : List Char) :
    ∀ c ∈ (pyStrip (((s.map asciiFold).flatten).map pyLower)).map substPunct,
      baseOK c = true := by
  intro c hc
  rw [List.mem_map] at hc
  obtain ⟨a, ha, rfl⟩ := hc
  have ha' := mem_pyStrip ha
  rw [List.mem_map] at ha'
  obtain ⟨b, hb, rfl⟩ := ha'
  rw [List.mem_flatten] at hb
  obtain ⟨l, hl, hbl⟩ := hb
  rw [List.mem_map] at hl
  obtain ⟨c0, _, rfl⟩ := hl
  have hba : b.toNat < 128 := asciiFold_ascii c0 b hbl
  have := (asciiCharFacts ⟨b.toNat, hba⟩).1
  rwa [Char.ofNat_toNat] at this

/-- Characters of `collapseGo` output: a space, or a non-whitespace input
character. -/
theorem mem_collapseGo :
    ∀ (s : List Char) (pending : Bool) (c : Char),
      c ∈ collapseGo pending s → c = ' ' ∨ (c ∈ s ∧ pySpace c = false) := by
  intro s
  induction s with
  | nil => intro pending c h; simp [collapseGo] at h
  | cons a r ih =>
    intro pending c h
    by_cases ha : pySpace a = true
    · rw [show collapseGo pending (a :: r) = collapseGo true r by
        simp [collapseGo, ha]] at h
      rcases ih true c h with h1 | ⟨h2, h3⟩
      · exact Or.inl h1
      · exact Or.inr ⟨List.mem_cons_of_mem _ h2, h3⟩
    · have ha' : pySpace a = false := by simpa using ha
      cases pending with
      | true =>
        rw [show collapseGo true (a :: r) = ' ' :: a :: collapseGo false r by
          simp [collapseGo, ha']] at h
        rcases List.mem_cons.mp h with h1 | h'
        · exact Or.inl h1
        · rcases List.mem_cons.mp h' with h2 | h3
          · exact Or.inr ⟨by rw [h2]; exact List.mem_cons_self a r, by rwa [h2]⟩
          · rcases ih false c h3 with h4 | ⟨h5, h6⟩
            · exact Or.inl h4
            · exact Or.inr ⟨List.mem_cons_of_mem _ h5, h6⟩
      | false =>
        rw [show collapseGo false (a :: r) = a :: collapseGo false r by
          simp [collapseGo, ha']] at h
        rcases List.mem_cons.mp h with h2 | h3
        · exact Or.inr ⟨by rw [h2]; exact List.mem_cons_self a r, by rwa [h2]⟩
        · rcases ih false c h3 with h4 | ⟨h5, h6⟩
          · exact Or.inl h4
          · exact Or.inr ⟨List.mem_cons_of_mem _ h5, h6⟩

theorem noDoubleSpace_cons (a : Char) (l : List Char) (ha : a ≠ ' ')
    (hl : noDoubleSpace l = true) : noDoubleSpace (a :: l) = true := by
  cases l with
  | nil => rfl
  | cons b r => simp [noDoubleSpace, ha, hl]

theorem noDoubleSpace_tail {a : Char} {l : List Char}
    (h : noDoubleSpace (a :: l) = true) : noDoubleSpace l = true := by
  cases l with
  | nil => rfl
  | cons b r =>
    rw [noDoubleSpace, Bool.and_eq_true] at h
    exact h.2

theorem getLast?_cons_ne {a x : Char} {l : List Char} (hx : a ≠ x)
    (hl : l.getLast? ≠ some x) : (a :: l).getLast? ≠ some x := by
  cases l with
  | nil => simpa using hx
  | cons b r => rw [List.getLast?_cons_cons]; exact hl

/-- Fact: `collapseGo` output has no double spaces and no trailing space. -/
theorem collapseGo_wellformed :
    ∀ (s : List Char) (pending : Bool),
      noDoubleSpace (collapseGo pending s) = true ∧
      (collapseGo pending s).getLast? ≠ some ' ' := by
  intro s
  induction s with
  | nil => intro pending; simp [collapseGo, noDoubleSpace]
  | cons a r ih =>
    intro pending
    by_cases ha : pySpace a = true
    · rw [show collapseGo pending (a :: r) = collapseGo true r by
        simp [collapseGo, ha]]
      exact ih true
    · have ha' : pySpace a = false := by simpa using ha
      have haSp : a ≠ ' ' := by
        intro h; rw [h] at ha'; simp [pySpace] at ha'
      obtain ⟨hnd, hlast⟩ := ih false
      cases pending with
      | true =>
        rw [show collapseGo true (a :: r) = ' ' :: a :: collapseGo false r by
          simp [collapseGo, ha']]
        refine ⟨?_, ?_⟩
        · have h1 : noDoubleSpace (a :: collapseGo false r) = true :=
            noDoubleSpace_cons _ _ haSp hnd
          simp [noDoubleSpace, haSp, h1]
        · rw [List.getLast?_cons_cons]
          exact getLast?_cons_ne haSp hlast
      | false =>
        rw [show collapseGo false (a :: r) = a :: collapseGo false r by
          simp [collapseGo, ha']]
        exact ⟨noDoubleSpace_cons _ _ haSp hnd, getLast?_cons_ne haSp hlast⟩

/-- Fact: `collapseGo false` preserves a non-whitespace head. -/
theorem collapseGo_false_head (s : List Char)
    (h : ∀ c, s.head? = some c → pySpace c = false) :
    (collapseGo false s).head? = s.head? := by
  cases s with
  | nil => rfl
  | cons a r =>
    have ha := h a rfl
    rw [show collapseGo false (a :: r) = a :: collapseGo false r by
      simp [collapseGo, ha]]
    rfl

theorem head?_dropWhile_false {p : Char → Bool} {s : List Char} {c : Char}
    (h : (s.dropWhile p).head? = some c) : p c = false := by
  induction s with
  | nil => simp at h
  | cons a r ih =>
    rw [List.dropWhile_cons] at h
    by_cases ha : p a = true
    · rw [if_pos ha] at h; exact ih h
    · rw [if_neg ha] at h
      simp at h
      subst h
      simpa using ha

/-- The collapse stage establishes the full cleanliness invariant on any
input whose characters are `baseOK`. -/
theorem pyCollapse_clean (t : List Char)
    (hbase : ∀ c ∈ t, baseOK c = true) :
    isCleanStr (pyCollapse t) = true := by
  unfold pyCollapse
  set u := t.dropWhile pySpace with hu
  have hmemu : ∀ c ∈ u, c ∈ t := fun c hc =>
    (List.dropWhile_sublist (l := t) (p := pySpace)).subset hc
  rw [isCleanStr]
  simp only [Bool.and_eq_true, List.all_eq_true, decide_eq_true_eq]
  refine ⟨⟨⟨?_, ?_⟩, ?_⟩, ?_⟩
  · intro c hc
    rcases mem_collapseGo u false c hc with h1 | ⟨h2, h3⟩
    · subst h1; decide
    · have hb := hbase c (hmemu c h2)
      simp [cleanChar, hb, h3]
  · exact (collapseGo_wellformed u false).1
  · intro hhead
    have hns : ∀ c, u.head? = some c → pySpace c = false := by
      intro c hc
      exact head?_dropWhile_false (hu ▸ hc)
    rw [collapseGo_false_head u hns] at hhead
    cases hcu : u.head? with
    | none => rw [hcu] at hhead; exact Option.noConfusion hhead
    | some c =>
      rw [hcu] at hhead
      have := hns c hcu
      have hc : c = ' ' := by injection hhead
      rw [hc] at this
      simp [pySpace] at this
  · exact (collapseGo_wellformed u false).2

theorem flatten_asciiFold_id (s : List Char)
    (h : ∀ c ∈ s, c.toNat < 128) : (s.map asciiFold).flatten = s := by
  induction s with
  | nil => rfl
  | cons a r ih =>
    have ha : asciiFold a = [a] := by
      unfold asciiFold
      rw [if_pos (h a (List.mem_cons_self a r))]
    simp only [List.map_cons, List.flatten_cons, ha]
    rw [ih (fun c hc => h c (List.mem_cons_of_mem _ hc))]
    rfl

theorem map_id_of {f : Char → Char} (s : List Char)
    (h : ∀ c ∈ s, f c = c) : s.map f = s := by
  induction s with
  | nil => rfl
  | cons a r ih =>
    simp only [List.map_cons, h a (List.mem_cons_self a r)]
    rw [ih (fun c hc => h c (List.mem_cons_of_mem _ hc))]

theorem dropWhile_id_of (p : Char → Bool) (s : List Char)
    (h : ∀ c, s.head? = some c → p c = false) : s.dropWhile p = s := by
  cases s with
  | nil => rfl
  | cons a r =>
    rw [List.dropWhile_cons, if_neg]
    rw [h a rfl]
    simp

theorem pyStrip_id (s : List Char)
    (hh : ∀ c, s.head? = some c → pySpace c = false)
    (hl : ∀ c, s.getLast? = some c → pySpace c = false) : pyStrip s = s := by
  unfold pyStrip
  rw [dropWhile_id_of _ _ hh]
  rw [dropWhile_id_of _ _ (fun c hc => hl c (by rwa [List.head?_reverse] at hc))]
  exact List.reverse_reverse s

theorem noDoubleSpace_space_cons {l : List Char}
    (h : noDoubleSpace (' ' :: l) = true) : l.head? ≠ some ' ' := by
  cases l with
  | nil => simp
  | cons b r =>
    rw [noDoubleSpace, Bool.and_eq_true] at h
    intro hb
    have hb' : b = ' ' := by injection hb
    rw [hb'] at h
    simp at h

/-- On a string satisfying the cleanliness invariant (all whitespace is a
single interior space), the collapse worker is the identity; the `true`
state prepends the single pending space. -/
theorem collapseGo_id :
    ∀ (n : Nat) (s : List Char), s.length ≤ n →
      (∀ c ∈ s, pySpace c = true → c = ' ') →
      noDoubleSpace s = true →
      s.getLast? ≠ some ' ' →
      (s.head? ≠ some ' ' → collapseGo false s = s) ∧
      (s ≠ [] → s.head? ≠ some ' ' → collapseGo true s = ' ' :: s) := by
  intro n
  induction n with
  | zero =>
    intro s hlen _ _ _
    have hs : s = [] := List.eq_nil_of_length_eq_zero (Nat.le_zero.mp hlen)
    subst hs
    exact ⟨fun _ => rfl, fun h => absurd rfl h⟩
  | succ n ih =>
    intro s hlen hsp hnd hlast
    cases s with
    | nil => exact ⟨fun _ => rfl, fun h => absurd rfl h⟩
    | cons a r =>
      have main : a ≠ ' ' →
          collapseGo false (a :: r) = a :: r ∧
          collapseGo true (a :: r) = ' ' :: a :: r := by
        intro ha
        have haS : pySpace a = false := by
          cases h : pySpace a
          · rfl
          · exact absurd (hsp a (List.mem_cons_self a r) h) ha
        have hFr : collapseGo false r = r := by
          cases r with
          | nil => rfl
          | cons b r2 =>
            have hlen' : (b :: r2).length ≤ n := by
              simp at hlen ⊢; omega
            have hsp' : ∀ c ∈ b :: r2, pySpace c = true → c = ' ' :=
              fun c hc => hsp c (List.mem_cons_of_mem _ hc)
            have hnd' : noDoubleSpace (b :: r2) = true := noDoubleSpace_tail hnd
            have hlast' : (b :: r2).getLast? ≠ some ' ' := by
              rwa [List.getLast?_cons_cons] at hlast
            by_cases hb : b = ' '
            · subst hb
              have hr2ne : r2 ≠ [] := by
                intro h
                subst h
                exact hlast' rfl
              have hr2head : r2.head? ≠ some ' ' :=
                noDoubleSpace_space_cons hnd'
              have hlen2 : r2.length ≤ n := by
                simp at hlen'; omega
              have hsp2 : ∀ c ∈ r2, pySpace c = true → c = ' ' :=
                fun c hc => hsp' c (List.mem_cons_of_mem _ hc)
              have hnd2 : noDoubleSpace r2 = true := noDoubleSpace_tail hnd'
              have hlast2 : r2.getLast? ≠ some ' ' := by
                cases r2 with
                | nil => simp
                | cons c r3 => rwa [List.getLast?_cons_cons] at hlast'
              have hT := (ih r2 hlen2 hsp2 hnd2 hlast2).2 hr2ne hr2head
              calc collapseGo false (' ' :: r2) = collapseGo true r2 := by
                    simp [collapseGo, pySpace]
                _ = ' ' :: r2 := hT
            · exact (ih (b :: r2) hlen' hsp' hnd' hlast').1
                (by simpa using hb)
        constructor
        · simp [collapseGo, haS, hFr]
        · simp [collapseGo, haS, hFr]
      have haOf : (a :: r).head? ≠ some ' ' → a ≠ ' ' := by
        intro hh ha
        exact hh (by rw [ha]; rfl)
      exact ⟨fun hh => (main (haOf hh)).1, fun _ hh => (main (haOf hh)).2⟩

/-- On a clean string, `pyCollapse` is the identity. -/
theorem pyCollapse_id (s : List Char) (h : isCleanStr s = true) :
    pyCollapse s = s := by
  rw [isCleanStr] at h
  simp only [Bool.and_eq_true, List.all_eq_true, decide_eq_true_eq] at h
  obtain ⟨⟨⟨hall, hnd⟩, hhead⟩, hlast⟩ := h
  have hsp : ∀ c ∈ s, pySpace c = true → c = ' ' := by
    intro c hc hspc
    have := hall c hc
    rw [cleanChar, Bool.and_eq_true] at this
    rcases Bool.or_eq_true _ _ |>.mp this.2 with h1 | h2
    · rw [hspc] at h1; simp at h1
    · simpa using h2
  have hheadS : ∀ c, s.head? = some c → pySpace c = false := by
    intro c hc
    cases hps : pySpace c
    · rfl
    · have hcs : c = ' ' := hsp c (by
        cases s with
        | nil => simp at hc
        | cons a r =>
          have : a = c := by injection hc
          rw [← this]; exact List.mem_cons_self a r) hps
      rw [hcs] at hc
      exact absurd hc hhead
  have hlastS : s.getLast? ≠ some ' ' := hlast
  unfold pyCollapse
  rw [dropWhile_id_of _ _ hheadS]
  exact (collapseGo_id s.length s le_rfl hsp hnd hlastS).1 hhead

/-- Fact: `cleanName` always produces a clean string. -/
theorem cleanName_isClean (s : List Char) : isCleanStr (cleanName s) = true := by
  unfold cleanName
  exact pyCollapse_clean _ (cleanStages_baseOK s)

/-- On a clean string, the whole cleanup pipeline is the identity. -/
theorem cleanName_id (s : List Char) (h : isCleanStr s = true) :
    cleanName s = s := by
  have h' := h
  rw [isCleanStr] at h'
  simp only [Bool.and_eq_true, List.all_eq_true, decide_eq_true_eq] at h'
  obtain ⟨⟨⟨hall, _⟩, hhead⟩, hlast⟩ := h'
  have hfacts : ∀ c ∈ s, c.toNat < 128 ∧ pyLower c = c ∧
      substPunct c = c ∧ (pySpace c = true → c = ' ') := by
    intro c hc
    have := hall c hc
    rw [cleanChar, Bool.and_eq_true, baseOK] at this
    obtain ⟨hb, hsp⟩ := this
    simp only [Bool.and_eq_true, decide_eq_true_eq] at hb
    refine ⟨hb.1.1.1, hb.1.1.2, ?_, ?_⟩
    · unfold substPunct
      rw [if_neg]
      push_neg
      exact ⟨hb.1.2, hb.2⟩
    · intro hspc
      rcases Bool.or_eq_true _ _ |>.mp hsp with h1 | h2
      · rw [hspc] at h1; simp at h1
      · simpa using h2
  have hheadS : ∀ c, s.head? = some c → pySpace c = false := by
    intro c hc
    have hmem : c ∈ s := by
      cases s with
      | nil => simp at hc
      | cons a r =>
        have : a = c := by injection hc
        rw [← this]; exact List.mem_cons_self a r
    cases hps : pySpace c
    · rfl
    · have hcs := (hfacts c hmem).2.2.2 hps
      rw [hcs] at hc
      exact absurd hc hhead
  have hlastS : ∀ c, s.getLast? = some c → pySpace c = false := by
    intro c hc
    have hmem : c ∈ s := by
      cases s with
      | nil => simp at hc
      | cons a r => exact List.mem_of_mem_getLast? hc
    cases hps : pySpace c
    · rfl
    · have hcs := (hfacts c hmem).2.2.2 hps
      rw [hcs] at hc
      exact absurd hc hlast
  unfold cleanName
  rw [flatten_asciiFold_id s (fun c hc => (hfacts c hc).1),
    map_id_of s (fun c hc => (hfacts c hc).2.1),
    pyStrip_id s hheadS hlastS,
    map_id_of s (fun c hc => (hfacts c hc).2.2.1)]
  exact pyCollapse_id s h

theorem leadsWith_append_drop :
    ∀ (p s : List Char), leadsWith p s = true → p ++ s.drop p.length = s := by
  intro p
  induction p with
  | nil => intro s _; simp
  | cons a q ih =>
    intro s h
    cases s with
    | nil => simp [leadsWith] at h
    | cons b r =>
      rw [leadsWith, Bool.and_eq_true] at h
      have hab : a = b := by simpa using h.1
      subst hab
      simp only [List.cons_append, List.length_cons, List.drop_succ_cons]
      rw [ih r h.2]

theorem noDoubleSpace_append_right :
    ∀ (a b : List Char), noDoubleSpace (a ++ b) = true →
      noDoubleSpace b = true := by
  intro a
  induction a with
  | nil => intro b h; exact h
  | cons x a' ih => intro b h; exact ih b (noDoubleSpace_tail h)

theorem noDoubleSpace_after_space :
    ∀ (q t : List Char), noDoubleSpace (q ++ ' ' :: t) = true →
      t.head? ≠ some ' ' := by
  intro q
  induction q with
  | nil => intro t h; exact noDoubleSpace_space_cons h
  | cons x q' ih => intro t h; exact ih t (noDoubleSpace_tail h)

/-- Dropping a matched space-terminated prefix preserves the cleanliness
invariant. -/
theorem dropPrefix_clean (q s : List Char)
    (hlead : leadsWith (q ++ [' ']) s = true)
    (hs : isCleanStr s = true) :
    isCleanStr (s.drop (q ++ [' ']).length) = true := by
  have hsplit : (q ++ [' ']) ++ s.drop (q ++ [' ']).length = s :=
    leadsWith_append_drop (q ++ [' ']) s hlead
  set t := s.drop (q ++ [' ']).length with ht
  rw [isCleanStr] at hs ⊢
  simp only [Bool.and_eq_true, List.all_eq_true, decide_eq_true_eq] at hs ⊢
  obtain ⟨⟨⟨hall, hnd⟩, _⟩, hlast⟩ := hs
  refine ⟨⟨⟨?_, ?_⟩, ?_⟩, ?_⟩
  · exact fun c hc => hall c (List.mem_of_mem_drop hc)
  · exact noDoubleSpace_append_right (q ++ [' ']) t (by rw [hsplit]; exact hnd)
  · refine noDoubleSpace_after_space q t ?_
    have hq : (q ++ [' ']) ++ t = q ++ ' ' :: t := by simp
    rw [← hq, hsplit]
    exact hnd
  · cases htn : t with
    | nil => simp
    | cons c r =>
      have hge : s.getLast? = t.getLast? := by
        rw [← hsplit]
        exact List.getLast?_append_of_ne_nil _ (by rw [htn]; simp)
      rw [← htn, ← hge]
      exact hlast

/-- The prefix-stripping loop preserves the cleanliness invariant. -/
theorem stripPrefixes_clean (s : List Char) (hs : isCleanStr s = true) :
    isCleanStr (stripPrefixes s) = true := by
  have step : ∀ (q u : List Char), isCleanStr u = true →
      isCleanStr
        (if leadsWith (q ++ [' ']) u then u.drop (q ++ [' ']).length
         else u) = true := by
    intro q u hu
    by_cases h : leadsWith (q ++ [' ']) u = true
    · rw [if_pos h]; exact dropPrefix_clean q u h hu
    · rw [if_neg h]; exact hu
  have e1 : "provincia de ".toList = "provincia de".toList ++ [' '] := by decide
  have e2 : "partido de ".toList = "partido de".toList ++ [' '] := by decide
  have e3 : "departamento de ".toList =
      "departamento de".toList ++ [' '] := by decide
  have e4 : "departamento ".toList = "departamento".toList ++ [' '] := by decide
  rw [stripPrefixes, prefixes]
  simp only [List.foldl]
  rw [e1, e2, e3, e4]
  exact step _ _ (step _ _ (step _ _ (step _ _ hs)))

/-- When no prefix matches, the stripping loop is the identity. -/
theorem stripPrefixes_id (s : List Char)
    (h : ∀ p ∈ prefixes, leadsWith p s = false) : stripPrefixes s = s := by
  have h1 := h ("provincia de ".toList) (by decide)
  have h2 := h ("partido de ".toList) (by decide)
  have h3 := h ("departamento de ".toList) (by decide)
  have h4 := h ("departamento ".toList) (by decide)
  simp at h1 h2 h3 h4
  rw [stripPrefixes, prefixes]
  simp [h1, h2, h3, h4]

/-- C5 counterexample: the normalizer is not idempotent.  The prefix loop
leaves `partido de partido de x` as `partido de x`, and a second
application strips again. -/
theorem normalize_name_not_idempotent :
    normalize_name (normalize_name ("partido de partido de x".toList)) ≠
      normalize_name ("partido de partido de x".toList) := by decide

/-- C5 (amended): the normalizer is idempotent on every input whose
normalized form does not itself begin with one of the four administrative
prefixes. -/
theorem normalize_name_idempotent_off_prefixes :
    ∀ s : List Char,
      (∀ p ∈ prefixes, leadsWith p (normalize_name s) = false) →
      normalize_name (normalize_name s) = normalize_name s := by
  intro s h
  by_cases hs : s = []
  · subst hs; rfl
  · by_cases hy : normalize_name s = []
    · rw [hy]; rfl
    · have hys : normalize_name s = stripPrefixes (cleanName s) := by
        rw [normalize_name, if_neg hs]
      have hclean : isCleanStr (normalize_name s) = true := by
        rw [hys]
        exact stripPrefixes_clean _ (cleanName_isClean s)
      conv_lhs => rw [normalize_name]
      rw [if_neg hy, cleanName_id _ hclean]
      exact stripPrefixes_id _ h

/-- C5 witness: idempotence at a name whose normalized form starts with no
prefix. -/
theorem normalize_name_idempotent_off_prefixes_witness :
    normalize_name (normalize_name ("Río Segundo, Córdoba".toList)) =
      normalize_name ("Río Segundo, Córdoba".toList) :=
  normalize_name_idempotent_off_prefixes ("Río Segundo, Córdoba".toList)
    (by decide)

/-- C6 counterexample: on `partido de departamento x` the first matching
prefix is `partido de `, but the code strips a further prefix from the
remainder: the result is `x`, not `departamento x`. -/
theorem normalize_name_multi_strip_counterexample :
    List.find?
      (fun p => leadsWith p (cleanName ("partido de departamento x".toList)))
      prefixes = some ("partido de ".toList) ∧
    normalize_name ("partido de departamento x".toList) = "x".toList ∧
    ("x".toList : List Char) ≠
      (cleanName ("partido de departamento x".toList)).drop
        (("partido de ".toList).length) := by decide

/-- C6 (amended): the loop strips each listed prefix at most once, in list
order; in particular when the remainder after the first matching prefix
matches no listed prefix, exactly that one prefix is stripped. -/
theorem normalize_name_first_match_strip :
    ∀ (s p : List Char), s ≠ [] →
      List.find? (fun q => leadsWith q (cleanName s)) prefixes = some p →
      (∀ q ∈ prefixes, leadsWith q ((cleanName s).drop p.length) = false) →
      normalize_name s = (cleanName s).drop p.length := by
  intro s p hs hfind hrem
  rw [normalize_name, if_neg hs]
  rw [prefixes] at hfind
  simp only [List.find?_cons] at hfind
  by_cases h1 : leadsWith ("provincia de ".toList) (cleanName s) = true
  · simp only [h1] at hfind
    have hp : p = "provincia de ".toList := by
      injection hfind with h; exact h.symm
    subst hp
    have r2 := hrem ("partido de ".toList) (by decide)
    have r3 := hrem ("departamento de ".toList) (by decide)
    have r4 := hrem ("departamento ".toList) (by decide)
    simp at h1 r2 r3 r4
    rw [stripPrefixes, prefixes]
    simp [h1, r2, r3, r4]
  · have h1f : leadsWith ("provincia de ".toList) (cleanName s) = false := by
      simpa using h1
    simp only [h1f] at hfind
    by_cases h2 : leadsWith ("partido de ".toList) (cleanName s) = true
    · simp only [h2] at hfind
      have hp : p = "partido de ".toList := by
        injection hfind with h; exact h.symm
      subst hp
      have r3 := hrem ("departamento de ".toList) (by decide)
      have r4 := hrem ("departamento ".toList) (by decide)
      simp at h1f h2 r3 r4
      rw [stripPrefixes, prefixes]
      simp [h1f, h2, r3, r4]
    · have h2f : leadsWith ("partido de ".toList) (cleanName s) = false := by
        simpa using h2
      simp only [h2f] at hfind
      by_cases h3 : leadsWith ("departamento de ".toList) (cleanName s) = true
      · simp only [h3] at hfind
        have hp : p = "departamento de ".toList := by
          injection hfind with h; exact h.symm
        subst hp
        have r4 := hrem ("departamento ".toList) (by decide)
        simp at h1f h2f h3 r4
        rw [stripPrefixes, prefixes]
        simp [h1f, h2f, h3, r4]
      · have h3f : leadsWith ("departamento de ".toList) (cleanName s) = false := by
          simpa using h3
        simp only [h3f] at hfind
        by_cases h4 : leadsWith ("departamento ".toList) (cleanName s) = true
        · simp only [h4] at hfind
          have hp : p = "departamento ".toList := by
            injection hfind with h; exact h.symm
          subst hp
          simp at h1f h2f h3f h4
          rw [stripPrefixes, prefixes]
          simp [h1f, h2f, h3f, h4]
        · have h4f : leadsWith ("departamento ".toList) (cleanName s) = false := by
            simpa using h4
          simp only [h4f] at hfind
          simp at hfind

/-- C6 witness: `Departamento de Rio Segundo` strips exactly its first
matching prefix. -/
theorem normalize_name_first_match_strip_witness :
    normalize_name ("Departamento de Rio Segundo".toList) =
      (cleanName ("Departamento de Rio Segundo".toList)).drop
        (("departamento de ".toList).length) :=
  normalize_name_first_match_strip ("Departamento de Rio Segundo".toList)
    ("departamento de ".toList) (by decide) (by decide) (by decide)

end TierrasArg
